import Mathlib

/-!
Shallow embedding of the in-memory cache engine (`src/cache.ts`).

Modelling choices, each justified by the source:
* The backing JS `Map` is an insertion-ordered association list
  `List (String × CacheEntry)`; `Map.get` finds the unique matching key,
  `Map.set` of an existing key replaces in place, of a new key appends,
  `Map.delete` removes the matching pair.  Iteration (`clearNamespace`,
  `sweepExpired`) walks the list in insertion order, deleting only the
  entry currently visited, exactly as the JS iterator allows.
* The doubly-linked `LRUList` is the list of the `fullKey`s on its nodes,
  head = most recently used.  Every entry owns exactly one node and the
  store's keys are unique, so a node is identified by its `fullKey`;
  `detach` removes the (unique) occurrence, `popBack` takes the last
  element.
* Wall-clock time (`Date.now()`) is an explicit `now : Nat` parameter in
  ms; `expiresAt = 0` is the "never expires" sentinel, as in the code.
* `usedBytes` is an `Int`: the JS number is adjusted by possibly negative
  deltas (`usedBytes += buf.length - exists.size`).
* `Buffer`s are `List Nat` byte sequences; `Buffer.from(string)` encodes
  UTF-8; objects are serialized with `JSON.stringify`, modelled for the
  JSON fragment the cache stores (null/bool/integer/string/array/object).
-/

/-- UTF-8 encoding of one character, as `Buffer.from` performs it. -/
def utf8EncodeChar (c : Char) : List Nat :=
  let n := c.toNat
  if n < 128 then [n]
  else if n < 2048 then [192 + n / 64, 128 + n % 64]
  else if n < 65536 then [224 + n / 4096, 128 + (n / 64) % 64, 128 + n % 64]
  else [240 + n / 262144, 128 + (n / 4096) % 64, 128 + (n / 64) % 64, 128 + n % 64]

/-- The byte sequence of `Buffer.from(s)` for a string `s` (UTF-8). -/
def utf8Bytes (s : String) : List Nat :=
  (s.data.map utf8EncodeChar).flatten

/-- JSON values, the payloads `JSON.stringify` serializes (numbers
restricted to integers, which is all the cache's callers store). -/
inductive Json where
  | null : Json
  | bool : Bool → Json
  | num : Int → Json
  | str : String → Json
  | arr : List Json → Json
  | obj : List (String × Json) → Json

/-- JSON string escaping for the characters our payloads can contain. -/
def jsonEscapeChar (c : Char) : String :=
  if c = '"' then "\\\""
  else if c = '\\' then "\\\\"
  else String.singleton c

/-- A JSON string literal: quoted and escaped. -/
def jsonQuote (s : String) : String :=
  "\"" ++ String.join (s.data.map jsonEscapeChar) ++ "\""

mutual

/-- `JSON.stringify` on the modelled JSON fragment. -/
def jsonStringify : Json → String
  | .null => "null"
  | .bool true => "true"
  | .bool false => "false"
  | .num n => toString n
  | .str s => jsonQuote s
  | .arr xs => "[" ++ jsonStringifyArr xs ++ "]"
  | .obj fs =>
      String.singleton (Char.ofNat 123) ++ jsonStringifyObj fs ++
        String.singleton (Char.ofNat 125)

/-- Comma-separated serialization of array elements. -/
def jsonStringifyArr : List Json → String
  | [] => ""
  | [x] => jsonStringify x
  | x :: y :: xs => jsonStringify x ++ "," ++ jsonStringifyArr (y :: xs)

/-- Comma-separated serialization of object fields. -/
def jsonStringifyObj : List (String × Json) → String
  | [] => ""
  | [(k, v)] => jsonQuote k ++ ":" ++ jsonStringify v
  | (k, v) :: f :: fs =>
      jsonQuote k ++ ":" ++ jsonStringify v ++ "," ++ jsonStringifyObj (f :: fs)

end

/-- Body of a JSON string literal: characters up to the closing quote,
undoing the escapes `jsonEscapeChar` produces.  Returns the decoded
characters and the input remaining after the closing quote (fuelled so
the recursion is structural and computations reduce definitionally). -/
def jsonParseStringAux : Nat → List Char → Option (List Char × List Char)
  | 0, _ => none
  | _, [] => none
  | fuel + 1, c :: cs =>
    if c = '"' then some ([], cs)
    else if c = '\\' then
      match cs with
      | [] => none
      | d :: cs2 => (jsonParseStringAux fuel cs2).map (fun r => (d :: r.1, r.2))
    else (jsonParseStringAux fuel cs).map (fun r => (c :: r.1, r.2))

/-- `true` iff the first list is a prefix of the second. -/
def startsWithChars : List Char → List Char → Bool
  | [], _ => true
  | _ :: _, [] => false
  | p :: ps, s :: ss => decide (p = s) && startsWithChars ps ss

/-- Longest leading run of decimal digits, plus the rest. -/
def spanDigits : List Char → List Char × List Char
  | [] => ([], [])
  | c :: cs =>
    if c.isDigit then
      let r := spanDigits cs
      (c :: r.1, r.2)
    else ([], c :: cs)

/-- Value of a digit run. -/
def digitsToNat (ds : List Char) : Nat :=
  ds.foldl (fun a c => a * 10 + (c.toNat - 48)) 0

/-- Parser mode: a single JSON value, the fields of an object after the
opening brace, or the elements of an array after the opening bracket. -/
inductive ParseMode where
  | value : ParseMode
  | fields : ParseMode
  | elems : ParseMode

/-- Recursive-descent JSON parser (fuelled, structural recursion on the
fuel so concrete parses reduce definitionally): the deserialization a
reader such as `JSON.parse` applies to the returned bytes.  Field lists
are returned wrapped in `Json.obj`, element lists in `Json.arr`. -/
def jsonParseAux : Nat → ParseMode → List Char → Option (Json × List Char)
  | 0, _, _ => none
  | fuel + 1, ParseMode.value, cs =>
    if startsWithChars "null".data cs then some (.null, cs.drop 4)
    else if startsWithChars "true".data cs then some (.bool true, cs.drop 4)
    else if startsWithChars "false".data cs then some (.bool false, cs.drop 5)
    else
      match cs with
      | [] => none
      | c :: rest =>
        if c = '"' then
          match jsonParseStringAux fuel rest with
          | some (s, r) => some (.str (String.mk s), r)
          | none => none
        else if c = Char.ofNat 123 then
          match rest with
          | [] => none
          | d :: r2 =>
            if d = Char.ofNat 125 then some (.obj [], r2)
            else
              match jsonParseAux fuel ParseMode.fields (d :: r2) with
              | some (.obj fs, r) => some (.obj fs, r)
              | _ => none
        else if c = '[' then
          match rest with
          | [] => none
          | d :: r2 =>
            if d = ']' then some (.arr [], r2)
            else
              match jsonParseAux fuel ParseMode.elems (d :: r2) with
              | some (.arr xs, r) => some (.arr xs, r)
              | _ => none
        else if c = '-' then
          match spanDigits rest with
          | ([], _) => none
          | (ds, r) => some (.num (-(digitsToNat ds : Int)), r)
        else if c.isDigit then
          let r := spanDigits (c :: rest)
          some (.num (digitsToNat r.1 : Int), r.2)
        else none
  | fuel + 1, ParseMode.fields, cs =>
    match cs with
    | '"' :: cs1 =>
      match jsonParseStringAux fuel cs1 with
      | some (k, ':' :: cs2) =>
        match jsonParseAux fuel ParseMode.value cs2 with
        | some (v, ',' :: cs3) =>
          match jsonParseAux fuel ParseMode.fields cs3 with
          | some (.obj fs, r) => some (.obj ((String.mk k, v) :: fs), r)
          | _ => none
        | some (v, e :: cs3) =>
          if e = Char.ofNat 125 then some (.obj [(String.mk k, v)], cs3)
          else none
        | _ => none
      | _ => none
    | _ => none
  | fuel + 1, ParseMode.elems, cs =>
    match jsonParseAux fuel ParseMode.value cs with
    | some (v, ',' :: cs2) =>
      match jsonParseAux fuel ParseMode.elems cs2 with
      | some (.arr xs, r) => some (.arr (v :: xs), r)
      | _ => none
    | some (v, ']' :: cs2) => some (.arr [v], cs2)
    | _ => none

/-- Parse one JSON value from the given characters. -/
def jsonParse (fuel : Nat) (cs : List Char) : Option (Json × List Char) :=
  jsonParseAux fuel ParseMode.value cs

/-- A stored entry: raw bytes, absolute expiry (`0` = never), and the
cached byte size.  (The `lruNode` back-reference is represented by the
entry's `fullKey` appearing in the recency list.) -/
structure CacheEntry where
  value : List Nat
  expiresAt : Nat
  size : Nat
deriving DecidableEq

/-- The values `set` accepts: raw bytes, a string, or a structured
object (serialized via `JSON.stringify`). -/
inductive CacheValue where
  | buf : List Nat → CacheValue
  | str : String → CacheValue
  | obj : Json → CacheValue

/-- The cache engine state: entry table, recency list (head = most
recently used), immutable budget, and incrementally tracked usage. -/
structure InMemoryCache where
  store : List (String × CacheEntry)
  lru : List String
  maxBytes : Nat
  usedBytes : Int
deriving DecidableEq

namespace InMemoryCache

/-- `makeFullKey`: namespace and key combined (`ns:key`). -/
def makeFullKey (ns key : String) : String := ns ++ ":" ++ key

/-- Value normalization at the top of `set`: pass buffers through,
UTF-8-encode strings, `JSON.stringify` then encode objects. -/
def normalizeValue : CacheValue → List Nat
  | .buf b => b
  | .str s => utf8Bytes s
  | .obj j => utf8Bytes (jsonStringify j)

/-- `store.get(k)`. -/
def storeGet : List (String × CacheEntry) → String → Option CacheEntry
  | [], _ => none
  | (k', e) :: rest, k => if k' = k then some e else storeGet rest k

/-- `store.set(k, e)`: replace in place, or append a new binding. -/
def storeSet : List (String × CacheEntry) → String → CacheEntry →
    List (String × CacheEntry)
  | [], k, e => [(k, e)]
  | (k', e') :: rest, k, e =>
    if k' = k then (k, e) :: rest else (k', e') :: storeSet rest k e

/-- `store.delete(k)`. -/
def storeDelete : List (String × CacheEntry) → String → List (String × CacheEntry)
  | [], _ => []
  | (k', e') :: rest, k => if k' = k then rest else (k', e') :: storeDelete rest k

/-- The store's key set (in insertion order). -/
def keys (m : List (String × CacheEntry)) : List String := m.map Prod.fst

/-- Sum of the `size` fields over a store. -/
def sizeSum (m : List (String × CacheEntry)) : Int :=
  (m.map (fun p => (p.2.size : Int))).sum

/-- `LRUList.detach`: remove the node carrying `k`. -/
def lruErase : List String → String → List String
  | [], _ => []
  | x :: rest, k => if x = k then rest else x :: lruErase rest k

/-- `LRUList.moveToFront`: no-op if already head, else detach and
reinsert at the head. -/
def moveToFront (l : List String) (k : String) : List String :=
  match l with
  | [] => [k]
  | h :: t => if h = k then h :: t else k :: lruErase (h :: t) k

/-- `LRUList.pushFront` for a fresh node. -/
def pushFront (l : List String) (k : String) : List String := k :: l

/-- `fullKey.startsWith(pfx)` (JS `String.prototype.startsWith`). -/
def strStartsWith (s pfx : String) : Bool := startsWithChars pfx.data s.data

/-- The expiry test `entry.expiresAt > 0 && entry.expiresAt <= now`. -/
def entryExpired (now : Nat) (e : CacheEntry) : Bool :=
  decide (0 < e.expiresAt) && decide (e.expiresAt ≤ now)

/-- A freshly constructed cache with budget `maxB`. -/
def init (maxB : Nat) : InMemoryCache :=
  { store := [], lru := [], maxBytes := maxB, usedBytes := 0 }

/-- The `evictUntilWithinBudget` loop, acting on the recency list
REVERSED (head of the argument = LRU tail = next `popBack` victim):
while over budget, pop the tail; stop if the list is empty; skip
(`continue`) if the store has no record; else delete and subtract. -/
def evictRev (maxB : Nat) : List String → List (String × CacheEntry) → Int →
    List String × List (String × CacheEntry) × Int
  | [], store, used => ([], store, used)
  | v :: rest, store, used =>
    if (maxB : Int) < used then
      match storeGet store v with
      | none => evictRev maxB rest store used
      | some e => evictRev maxB rest (storeDelete store v) (used - (e.size : Int))
    else (v :: rest, store, used)

/-- `evictUntilWithinBudget` on the whole cache state. -/
def evictUntilWithinBudget (c : InMemoryCache) : InMemoryCache :=
  let r := evictRev c.maxBytes c.lru.reverse c.store c.usedBytes
  { c with lru := r.1.reverse, store := r.2.1, usedBytes := r.2.2 }

/-- `set(ns, key, value, {ttlMs})` at time `now` (`ttlMs = 0` models an
absent option). -/
def set (c : InMemoryCache) (now : Nat) (ns key : String) (v : CacheValue)
    (ttlMs : Nat) : InMemoryCache :=
  let buf := normalizeValue v
  let fullKey := makeFullKey ns key
  let expiresAt := if 0 < ttlMs then now + ttlMs else 0
  let c1 :=
    match storeGet c.store fullKey with
    | some e =>
        { c with
          usedBytes := c.usedBytes + (buf.length : Int) - (e.size : Int)
          store := storeSet c.store fullKey
            { value := buf, expiresAt := expiresAt, size := buf.length }
          lru := moveToFront c.lru fullKey }
    | none =>
        { c with
          store := storeSet c.store fullKey
            { value := buf, expiresAt := expiresAt, size := buf.length }
          lru := pushFront c.lru fullKey
          usedBytes := c.usedBytes + (buf.length : Int) }
  evictUntilWithinBudget c1

/-- `delete(ns, key)`: result flag and new state. -/
def delete (c : InMemoryCache) (ns key : String) : Bool × InMemoryCache :=
  let fullKey := makeFullKey ns key
  match storeGet c.store fullKey with
  | none => (false, c)
  | some e =>
      (true,
        { c with
          usedBytes := c.usedBytes - (e.size : Int)
          lru := lruErase c.lru fullKey
          store := storeDelete c.store fullKey })

/-- `get(ns, key)` at time `now`: returned bytes and new state. -/
def get (c : InMemoryCache) (now : Nat) (ns key : String) :
    Option (List Nat) × InMemoryCache :=
  let fullKey := makeFullKey ns key
  match storeGet c.store fullKey with
  | none => (none, c)
  | some e =>
      if entryExpired now e then (none, (delete c ns key).2)
      else (some e.value, { c with lru := moveToFront c.lru fullKey })

/-- `has(ns, key)` at time `now`: flag and new state (lazy purge on an
expired hit, but no recency promotion). -/
def has (c : InMemoryCache) (now : Nat) (ns key : String) :
    Bool × InMemoryCache :=
  let fullKey := makeFullKey ns key
  match storeGet c.store fullKey with
  | none => (false, c)
  | some e =>
      if entryExpired now e then (false, (delete c ns key).2)
      else (true, c)

/-- The `clearNamespace` loop over the store in insertion order,
threading the recency list, `usedBytes` and the removal count. -/
def clearGo (pfx : String) : List (String × CacheEntry) → List String → Int →
    List (String × CacheEntry) × List String × Int × Nat
  | [], lru, used => ([], lru, used, 0)
  | (k, e) :: rest, lru, used =>
    if strStartsWith k pfx then
      let r := clearGo pfx rest (lruErase lru k) (used - (e.size : Int))
      (r.1, r.2.1, r.2.2.1, r.2.2.2 + 1)
    else
      let r := clearGo pfx rest lru used
      ((k, e) :: r.1, r.2.1, r.2.2.1, r.2.2.2)

/-- `clearNamespace(ns)`: removal count and new state. -/
def clearNamespace (c : InMemoryCache) (ns : String) : Nat × InMemoryCache :=
  let r := clearGo (ns ++ ":") c.store c.lru c.usedBytes
  (r.2.2.2, { c with store := r.1, lru := r.2.1, usedBytes := r.2.2.1 })

/-- `stats()`: entry count, used bytes, budget. -/
def stats (c : InMemoryCache) : Nat × Int × Nat :=
  (c.store.length, c.usedBytes, c.maxBytes)

/-- The `sweepExpired` scan over the store in insertion order. -/
def sweepGo (now : Nat) : List (String × CacheEntry) → List String → Int →
    List (String × CacheEntry) × List String × Int
  | [], lru, used => ([], lru, used)
  | (k, e) :: rest, lru, used =>
    if entryExpired now e then sweepGo now rest (lruErase lru k) (used - (e.size : Int))
    else
      let r := sweepGo now rest lru used
      ((k, e) :: r.1, r.2.1, r.2.2)

/-- `sweepExpired()` at time `now`. -/
def sweepExpired (c : InMemoryCache) (now : Nat) : InMemoryCache :=
  let r := sweepGo now c.store c.lru c.usedBytes
  { c with store := r.1, lru := r.2.1, usedBytes := r.2.2 }

/-- Every state reachable from a freshly constructed cache through the
public operations (plus the sweeper pass the timer triggers). -/
inductive Reachable : InMemoryCache → Prop where
  | init (maxB : Nat) : Reachable (init maxB)
  | set {c} (now : Nat) (ns key : String) (v : CacheValue) (ttlMs : Nat) :
      Reachable c → Reachable (set c now ns key v ttlMs)
  | get {c} (now : Nat) (ns key : String) :
      Reachable c → Reachable (get c now ns key).2
  | has {c} (now : Nat) (ns key : String) :
      Reachable c → Reachable (has c now ns key).2
  | del {c} (ns key : String) :
      Reachable c → Reachable (delete c ns key).2
  | clear {c} (ns : String) :
      Reachable c → Reachable (clearNamespace c ns).2
  | sweep {c} (now : Nat) :
      Reachable c → Reachable (sweepExpired c now)

/-- The central invariant: incremental byte accounting is exact, and
the recency list carries exactly the store's keys (once each). -/
def Inv (c : InMemoryCache) : Prop :=
  c.usedBytes = sizeSum c.store ∧ List.Perm c.lru (keys c.store) ∧
    (keys c.store).Nodup

theorem sizeSum_nil : sizeSum [] = 0 := rfl

theorem sizeSum_cons (k : String) (e : CacheEntry) (m : List (String × CacheEntry)) :
    sizeSum ((k, e) :: m) = (e.size : Int) + sizeSum m := by
  simp [sizeSum]

theorem sizeSum_nonneg (m : List (String × CacheEntry)) : 0 ≤ sizeSum m := by
  induction m with
  | nil => simp [sizeSum]
  | cons p rest ih =>
    obtain ⟨k, e⟩ := p
    rw [sizeSum_cons]
    positivity

theorem keys_cons (k : String) (e : CacheEntry) (m : List (String × CacheEntry)) :
    keys ((k, e) :: m) = k :: keys m := rfl

theorem storeGet_eq_none_iff {m : List (String × CacheEntry)} {k : String} :
    storeGet m k = none ↔ k ∉ keys m := by
  induction m with
  | nil => simp [storeGet, keys]
  | cons p rest ih =>
    obtain ⟨k', e⟩ := p
    by_cases h : k' = k
    · subst h
      simp [storeGet, keys]
    · simp [storeGet, h, keys, ih, Ne.symm h]

theorem mem_keys_of_storeGet {m : List (String × CacheEntry)} {k : String}
    {e : CacheEntry} (h : storeGet m k = some e) : k ∈ keys m := by
  by_contra hmem
  rw [← storeGet_eq_none_iff] at hmem
  rw [hmem] at h
  exact Option.noConfusion h

theorem storeGet_isSome_of_mem {m : List (String × CacheEntry)} {k : String}
    (h : k ∈ keys m) : ∃ e, storeGet m k = some e := by
  cases he : storeGet m k with
  | none => exact absurd (storeGet_eq_none_iff.mp he) (not_not_intro h)
  | some e => exact ⟨e, rfl⟩

theorem mem_of_storeGet {m : List (String × CacheEntry)} {k : String}
    {e : CacheEntry} (h : storeGet m k = some e) : (k, e) ∈ m := by
  induction m with
  | nil => exact absurd h (by simp [storeGet])
  | cons p rest ih =>
    obtain ⟨k', e'⟩ := p
    by_cases hk : k' = k
    · subst hk
      simp [storeGet] at h
      simp [h]
    · simp [storeGet, hk] at h
      exact List.mem_cons_of_mem _ (ih h)

theorem storeSet_of_not_mem {m : List (String × CacheEntry)} {k : String}
    (h : storeGet m k = none) (e : CacheEntry) :
    storeSet m k e = m ++ [(k, e)] := by
  induction m with
  | nil => simp [storeSet]
  | cons p rest ih =>
    obtain ⟨k', e'⟩ := p
    by_cases hk : k' = k
    · subst hk
      simp [storeGet] at h
    · simp [storeGet, hk] at h
      simp [storeSet, hk, ih h]

theorem keys_storeSet_some {m : List (String × CacheEntry)} {k : String}
    {e0 : CacheEntry} (h : storeGet m k = some e0) (e : CacheEntry) :
    keys (storeSet m k e) = keys m := by
  induction m with
  | nil => exact absurd h (by simp [storeGet])
  | cons p rest ih =>
    obtain ⟨k', e'⟩ := p
    by_cases hk : k' = k
    · subst hk
      simp [storeSet, keys]
    · simp [storeGet, hk] at h
      have h2 := ih h
      simp only [keys] at h2
      simp [storeSet, hk, keys, h2]

theorem sizeSum_storeSet_some {m : List (String × CacheEntry)} {k : String}
    {e0 : CacheEntry} (h : storeGet m k = some e0) (e : CacheEntry) :
    sizeSum (storeSet m k e) = sizeSum m - (e0.size : Int) + (e.size : Int) := by
  induction m with
  | nil => exact absurd h (by simp [storeGet])
  | cons p rest ih =>
    obtain ⟨k', e'⟩ := p
    by_cases hk : k' = k
    · subst hk
      simp [storeGet] at h
      subst h
      simp [storeSet, sizeSum_cons]
      ring
    · simp [storeGet, hk] at h
      simp [storeSet, hk, sizeSum_cons, ih h]
      ring

theorem sizeSum_storeDelete {m : List (String × CacheEntry)} {k : String}
    {e : CacheEntry} (h : storeGet m k = some e) :
    sizeSum (storeDelete m k) = sizeSum m - (e.size : Int) := by
  induction m with
  | nil => exact absurd h (by simp [storeGet])
  | cons p rest ih =>
    obtain ⟨k', e'⟩ := p
    by_cases hk : k' = k
    · subst hk
      simp [storeGet] at h
      subst h
      simp [storeDelete, sizeSum_cons]
    · simp [storeGet, hk] at h
      simp [storeDelete, hk, sizeSum_cons, ih h]
      ring

theorem lruErase_eq_erase (l : List String) (k : String) :
    lruErase l k = l.erase k := by
  induction l with
  | nil => rfl
  | cons x rest ih =>
    rw [List.erase_cons]
    by_cases h : x = k
    · simp [lruErase, h]
    · simp [lruErase, h, ih]

theorem keys_storeDelete (m : List (String × CacheEntry)) (k : String) :
    keys (storeDelete m k) = (keys m).erase k := by
  induction m with
  | nil => rfl
  | cons p rest ih =>
    obtain ⟨k', e'⟩ := p
    rw [keys_cons, List.erase_cons]
    by_cases h : k' = k
    · simp [storeDelete, h, keys]
    · simp [storeDelete, h, keys_cons, ih]

theorem storeGet_storeDelete_ne {m : List (String × CacheEntry)} {k v : String}
    (h : k ≠ v) : storeGet (storeDelete m v) k = storeGet m k := by
  induction m with
  | nil => rfl
  | cons p rest ih =>
    obtain ⟨k', e'⟩ := p
    by_cases hv : k' = v
    · subst hv
      have hne : ¬ (k' = k) := fun hh => h hh.symm
      simp [storeDelete, storeGet, hne]
    · by_cases hk : k' = k
      · subst hk
        simp [storeDelete, hv, storeGet]
      · simp [storeDelete, hv, storeGet, hk, ih]

theorem storeGet_storeDelete_self {m : List (String × CacheEntry)} {k : String}
    (h : (keys m).Nodup) : storeGet (storeDelete m k) k = none := by
  induction m with
  | nil => rfl
  | cons p rest ih =>
    obtain ⟨k', e'⟩ := p
    rw [keys_cons, List.nodup_cons] at h
    by_cases hk : k' = k
    · subst hk
      simp [storeDelete]
      rw [storeGet_eq_none_iff]
      exact h.1
    · simp [storeDelete, hk, storeGet, hk, ih h.2]

theorem perm_moveToFront {l : List String} {k : String} (h : k ∈ l) :
    List.Perm (moveToFront l k) l := by
  cases l with
  | nil => cases h
  | cons x rest =>
    by_cases hx : x = k
    · simp [moveToFront, hx]
    · rw [moveToFront]
      simp only [hx, if_false]
      rw [lruErase_eq_erase]
      exact (List.perm_cons_erase h).symm

theorem sizeSum_append (a b : List (String × CacheEntry)) :
    sizeSum (a ++ b) = sizeSum a + sizeSum b := by
  simp [sizeSum]

theorem evictRev_inv (maxB : Nat) :
    ∀ (l : List String) (store : List (String × CacheEntry)) (used : Int),
    used = sizeSum store → List.Perm l (keys store) → (keys store).Nodup →
    (evictRev maxB l store used).2.2 = sizeSum (evictRev maxB l store used).2.1 ∧
      List.Perm (evictRev maxB l store used).1
        (keys (evictRev maxB l store used).2.1) ∧
      (keys (evictRev maxB l store used).2.1).Nodup := by
  intro l
  induction l with
  | nil =>
    intro store used h1 h2 h3
    exact ⟨h1, h2, h3⟩
  | cons v rest ih =>
    intro store used h1 h2 h3
    by_cases hc : (maxB : Int) < used
    · have hv : v ∈ keys store := h2.subset (List.mem_cons_self v rest)
      obtain ⟨e, he⟩ := storeGet_isSome_of_mem hv
      have h2' : List.Perm rest (keys (storeDelete store v)) := by
        rw [keys_storeDelete]
        have hperm := h2.erase v
        rwa [List.erase_cons_head] at hperm
      have h3' : (keys (storeDelete store v)).Nodup := by
        rw [keys_storeDelete]
        exact h3.erase v
      have h1' : used - (e.size : Int) = sizeSum (storeDelete store v) := by
        rw [sizeSum_storeDelete he, h1]
      simpa [evictRev, hc, he] using ih (storeDelete store v) (used - e.size) h1' h2' h3'
    · simpa [evictRev, hc] using ⟨h1, h2, h3⟩

theorem inv_evictUntilWithinBudget {c : InMemoryCache} (h : Inv c) :
    Inv (evictUntilWithinBudget c) := by
  obtain ⟨h1, h2, h3⟩ := h
  have hrev : List.Perm c.lru.reverse (keys c.store) :=
    (List.reverse_perm c.lru).trans h2
  obtain ⟨g1, g2, g3⟩ :=
    evictRev_inv c.maxBytes c.lru.reverse c.store c.usedBytes h1 hrev h3
  exact ⟨g1, (List.reverse_perm _).trans g2, g3⟩

theorem inv_insert_new {c : InMemoryCache} (h : Inv c) {fk : String}
    (he : storeGet c.store fk = none) (buf : List Nat) (exp : Nat) :
    Inv { c with
          store := storeSet c.store fk ⟨buf, exp, buf.length⟩
          lru := pushFront c.lru fk
          usedBytes := c.usedBytes + (buf.length : Int) } := by
  obtain ⟨h1, h2, h3⟩ := h
  have hnm : fk ∉ keys c.store := storeGet_eq_none_iff.mp he
  refine ⟨?_, ?_, ?_⟩
  · simp only [storeSet_of_not_mem he, sizeSum_append, sizeSum_cons, sizeSum_nil]
    rw [h1]
    ring
  · simp only [storeSet_of_not_mem he, keys, List.map_append, pushFront]
    exact (h2.cons _).trans (List.perm_append_singleton _ _).symm
  · have hnodup : (fk :: keys c.store).Nodup := List.nodup_cons.mpr ⟨hnm, h3⟩
    have hperm : List.Perm (fk :: keys c.store)
        (keys (storeSet c.store fk ⟨buf, exp, buf.length⟩)) := by
      simp only [storeSet_of_not_mem he, keys, List.map_append]
      exact (List.perm_append_singleton _ _).symm
    exact hperm.nodup hnodup

theorem inv_update_existing {c : InMemoryCache} (h : Inv c) {fk : String}
    {e : CacheEntry} (he : storeGet c.store fk = some e) (buf : List Nat)
    (exp : Nat) :
    Inv { c with
          usedBytes := c.usedBytes + (buf.length : Int) - (e.size : Int)
          store := storeSet c.store fk ⟨buf, exp, buf.length⟩
          lru := moveToFront c.lru fk } := by
  obtain ⟨h1, h2, h3⟩ := h
  have hmem : fk ∈ keys c.store := mem_keys_of_storeGet he
  refine ⟨?_, ?_, ?_⟩
  · show c.usedBytes + (buf.length : Int) - (e.size : Int) = _
    rw [sizeSum_storeSet_some he, h1]
    ring
  · show List.Perm (moveToFront c.lru fk) _
    rw [keys_storeSet_some he]
    exact (perm_moveToFront (h2.mem_iff.mpr hmem)).trans h2
  · show (keys (storeSet c.store fk ⟨buf, exp, buf.length⟩)).Nodup
    rw [keys_storeSet_some he]
    exact h3

theorem inv_set {c : InMemoryCache} (h : Inv c) (now : Nat) (ns key : String)
    (v : CacheValue) (ttlMs : Nat) : Inv (set c now ns key v ttlMs) := by
  rw [set]
  apply inv_evictUntilWithinBudget
  cases he : storeGet c.store (makeFullKey ns key) with
  | none => simpa only [he] using inv_insert_new h he (normalizeValue v) _
  | some e => simpa only [he] using inv_update_existing h he (normalizeValue v) _

theorem inv_delete {c : InMemoryCache} (h : Inv c) (ns key : String) :
    Inv (delete c ns key).2 := by
  obtain ⟨h1, h2, h3⟩ := h
  cases he : storeGet c.store (makeFullKey ns key) with
  | none => simpa [delete, he] using ⟨h1, h2, h3⟩
  | some e =>
    refine ⟨?_, ?_, ?_⟩
    · simp only [delete, he]
      rw [sizeSum_storeDelete he, h1]
    · simp only [delete, he]
      rw [keys_storeDelete, lruErase_eq_erase]
      exact h2.erase _
    · simp only [delete, he]
      rw [keys_storeDelete]
      exact h3.erase _

theorem inv_get {c : InMemoryCache} (h : Inv c) (now : Nat) (ns key : String) :
    Inv (get c now ns key).2 := by
  cases he : storeGet c.store (makeFullKey ns key) with
  | none => simpa [get, he] using h
  | some e =>
    by_cases hx : entryExpired now e = true
    · simpa [get, he, hx] using inv_delete h ns key
    · obtain ⟨h1, h2, h3⟩ := h
      have hmem : makeFullKey ns key ∈ c.lru :=
        h2.mem_iff.mpr (mem_keys_of_storeGet he)
      simp only [get, he, hx]
      simp only [Bool.false_eq_true, if_false]
      exact ⟨h1, (perm_moveToFront hmem).trans h2, h3⟩

theorem inv_has {c : InMemoryCache} (h : Inv c) (now : Nat) (ns key : String) :
    Inv (has c now ns key).2 := by
  cases he : storeGet c.store (makeFullKey ns key) with
  | none => simpa [has, he] using h
  | some e =>
    by_cases hx : entryExpired now e = true
    · simpa [has, he, hx] using inv_delete h ns key
    · simpa [has, he, hx] using h

theorem clearGo_inv (pfx : String) :
    ∀ (store : List (String × CacheEntry)) (lru pre : List String) (u used : Int),
    used = u + sizeSum store →
    List.Perm lru (pre ++ keys store) → (pre ++ keys store).Nodup →
    (clearGo pfx store lru used).2.2.1 =
        u + sizeSum (clearGo pfx store lru used).1 ∧
      List.Perm (clearGo pfx store lru used).2.1
        (pre ++ keys (clearGo pfx store lru used).1) ∧
      (pre ++ keys (clearGo pfx store lru used).1).Nodup := by
  intro store
  induction store with
  | nil =>
    intro lru pre u used h1 h2 h3
    refine ⟨?_, h2, h3⟩
    simpa [clearGo, sizeSum_nil] using h1
  | cons p rest ih =>
    obtain ⟨k, e⟩ := p
    intro lru pre u used h1 h2 h3
    have hkpre : k ∉ pre := by
      intro hk
      exact (List.nodup_append.mp (by simpa [keys_cons] using h3)).2.2 hk
        (List.mem_cons_self k _)
    by_cases hs : strStartsWith k pfx = true
    · have h1' : used - (e.size : Int) = u + sizeSum rest := by
        rw [h1, sizeSum_cons]; ring
      have h2' : List.Perm (lruErase lru k) (pre ++ keys rest) := by
        rw [lruErase_eq_erase]
        have hperm := h2.erase k
        rwa [keys_cons, List.erase_append_right _ hkpre, List.erase_cons_head]
          at hperm
      have h3' : (pre ++ keys rest).Nodup := by
        refine List.Nodup.sublist ?_ h3
        rw [keys_cons]
        exact (List.Sublist.refl pre).append (List.sublist_cons_self k (keys rest))
      have hres := ih (lruErase lru k) pre u (used - (e.size : Int)) h1' h2' h3'
      simpa [clearGo, hs] using hres
    · have h1' : used = (u + (e.size : Int)) + sizeSum rest := by
        rw [h1, sizeSum_cons]; ring
      have h2' : List.Perm lru ((pre ++ [k]) ++ keys rest) := by
        simpa [keys_cons, List.append_assoc] using h2
      have h3' : ((pre ++ [k]) ++ keys rest).Nodup := by
        simpa [keys_cons, List.append_assoc] using h3
      obtain ⟨g1, g2, g3⟩ := ih lru (pre ++ [k]) (u + (e.size : Int)) used h1' h2' h3'
      refine ⟨?_, ?_, ?_⟩
      · simp only [clearGo, hs, if_false, Bool.false_eq_true]
        rw [g1, sizeSum_cons]
        ring
      · simpa [clearGo, hs, keys_cons, List.append_assoc] using g2
      · simpa [clearGo, hs, keys_cons, List.append_assoc] using g3

theorem inv_clearNamespace {c : InMemoryCache} (h : Inv c) (ns : String) :
    Inv (clearNamespace c ns).2 := by
  obtain ⟨h1, h2, h3⟩ := h
  have h2' : List.Perm c.lru ([] ++ keys c.store) := by simpa using h2
  have h3' : ([] ++ keys c.store).Nodup := by simpa using h3
  have h1' : c.usedBytes = 0 + sizeSum c.store := by rw [h1]; ring
  obtain ⟨g1, g2, g3⟩ :=
    clearGo_inv (ns ++ ":") c.store c.lru [] 0 c.usedBytes h1' h2' h3'
  refine ⟨?_, ?_, ?_⟩
  · simpa [clearNamespace] using g1
  · simpa [clearNamespace] using g2
  · simpa [clearNamespace] using g3

theorem sweepGo_inv (now : Nat) :
    ∀ (store : List (String × CacheEntry)) (lru pre : List String) (u used : Int),
    used = u + sizeSum store →
    List.Perm lru (pre ++ keys store) → (pre ++ keys store).Nodup →
    (sweepGo now store lru used).2.2 =
        u + sizeSum (sweepGo now store lru used).1 ∧
      List.Perm (sweepGo now store lru used).2.1
        (pre ++ keys (sweepGo now store lru used).1) ∧
      (pre ++ keys (sweepGo now store lru used).1).Nodup := by
  intro store
  induction store with
  | nil =>
    intro lru pre u used h1 h2 h3
    refine ⟨?_, h2, h3⟩
    simpa [sweepGo, sizeSum_nil] using h1
  | cons p rest ih =>
    obtain ⟨k, e⟩ := p
    intro lru pre u used h1 h2 h3
    have hkpre : k ∉ pre := by
      intro hk
      exact (List.nodup_append.mp (by simpa [keys_cons] using h3)).2.2 hk
        (List.mem_cons_self k _)
    by_cases hs : entryExpired now e = true
    · have h1' : used - (e.size : Int) = u + sizeSum rest := by
        rw [h1, sizeSum_cons]; ring
      have h2' : List.Perm (lruErase lru k) (pre ++ keys rest) := by
        rw [lruErase_eq_erase]
        have hperm := h2.erase k
        rwa [keys_cons, List.erase_append_right _ hkpre, List.erase_cons_head]
          at hperm
      have h3' : (pre ++ keys rest).Nodup := by
        refine List.Nodup.sublist ?_ h3
        rw [keys_cons]
        exact (List.Sublist.refl pre).append (List.sublist_cons_self k (keys rest))
      have hres := ih (lruErase lru k) pre u (used - (e.size : Int)) h1' h2' h3'
      simpa [sweepGo, hs] using hres
    · have h1' : used = (u + (e.size : Int)) + sizeSum rest := by
        rw [h1, sizeSum_cons]; ring
      have h2' : List.Perm lru ((pre ++ [k]) ++ keys rest) := by
        simpa [keys_cons, List.append_assoc] using h2
      have h3' : ((pre ++ [k]) ++ keys rest).Nodup := by
        simpa [keys_cons, List.append_assoc] using h3
      obtain ⟨g1, g2, g3⟩ := ih lru (pre ++ [k]) (u + (e.size : Int)) used h1' h2' h3'
      refine ⟨?_, ?_, ?_⟩
      · simp only [sweepGo, hs, if_false, Bool.false_eq_true]
        rw [g1, sizeSum_cons]
        ring
      · simpa [sweepGo, hs, keys_cons, List.append_assoc] using g2
      · simpa [sweepGo, hs, keys_cons, List.append_assoc] using g3

theorem inv_sweepExpired {c : InMemoryCache} (h : Inv c) (now : Nat) :
    Inv (sweepExpired c now) := by
  obtain ⟨h1, h2, h3⟩ := h
  have h2' : List.Perm c.lru ([] ++ keys c.store) := by simpa using h2
  have h3' : ([] ++ keys c.store).Nodup := by simpa using h3
  have h1' : c.usedBytes = 0 + sizeSum c.store := by rw [h1]; ring
  obtain ⟨g1, g2, g3⟩ :=
    sweepGo_inv now c.store c.lru [] 0 c.usedBytes h1' h2' h3'
  refine ⟨?_, ?_, ?_⟩
  · simpa [sweepExpired] using g1
  · simpa [sweepExpired] using g2
  · simpa [sweepExpired] using g3

theorem inv_init (maxB : Nat) : Inv (init maxB) := by
  refine ⟨rfl, ?_, ?_⟩ <;> simp [init, keys]

theorem inv_reachable {c : InMemoryCache} (h : Reachable c) : Inv c := by
  induction h with
  | init maxB => exact inv_init maxB
  | set now ns key v ttlMs _ ih => exact inv_set ih now ns key v ttlMs
  | get now ns key _ ih => exact inv_get ih now ns key
  | has now ns key _ ih => exact inv_has ih now ns key
  | del ns key _ ih => exact inv_delete ih ns key
  | clear ns _ ih => exact inv_clearNamespace ih ns
  | sweep now _ ih => exact inv_sweepExpired ih now

theorem storeGet_storeSet_self (m : List (String × CacheEntry)) (k : String)
    (e : CacheEntry) : storeGet (storeSet m k e) k = some e := by
  induction m with
  | nil => simp [storeSet, storeGet]
  | cons p rest ih =>
    obtain ⟨k', e'⟩ := p
    by_cases hk : k' = k
    · simp [storeSet, hk, storeGet]
    · simp [storeSet, hk, storeGet, ih]

theorem sizeSum_le_of_mem {m : List (String × CacheEntry)} {k : String}
    {e : CacheEntry} (h : (k, e) ∈ m) : (e.size : Int) ≤ sizeSum m := by
  induction m with
  | nil => cases h
  | cons p rest ih =>
    obtain ⟨k', e'⟩ := p
    rcases List.mem_cons.mp h with h0 | h0
    · obtain ⟨rfl, rfl⟩ := Prod.mk.injEq .. ▸ h0
      rw [sizeSum_cons]
      have := sizeSum_nonneg rest
      omega
    · rw [sizeSum_cons]
      have := ih h0
      omega

theorem moveToFront_head {l : List String} {k : String} (h : k ∈ l) :
    ∃ t, moveToFront l k = k :: t := by
  cases l with
  | nil => cases h
  | cons x rest =>
    by_cases hx : x = k
    · exact ⟨rest, by simp [moveToFront, hx]⟩
    · exact ⟨lruErase (x :: rest) k, by simp [moveToFront, hx]⟩

theorem evictRev_oversized (maxB : Nat) :
    ∀ (l : List String) (store : List (String × CacheEntry)) (used : Int)
      (k0 : String) (e0 : CacheEntry),
    used = sizeSum store → List.Perm (l ++ [k0]) (keys store) →
    (keys store).Nodup → storeGet store k0 = some e0 →
    (maxB : Int) < (e0.size : Int) →
    evictRev maxB (l ++ [k0]) store used = ([], [], 0) := by
  intro l
  induction l with
  | nil =>
    intro store used k0 e0 h1 h2 h3 he hsize
    have hkeys : keys store = [k0] := by
      have := h2.symm
      simpa using List.perm_singleton.mp this
    cases store with
    | nil => simp [keys] at hkeys
    | cons p rest =>
      obtain ⟨k', e'⟩ := p
      rw [keys_cons] at hkeys
      have hk : k' = k0 := by injection hkeys
      have hr0 : keys rest = [] := by injection hkeys
      subst hk
      have hrest : rest = [] := List.map_eq_nil_iff.mp hr0
      subst hrest
      have he' : e' = e0 := by simpa [storeGet] using he
      have hused : used = (e'.size : Int) := by
        rw [h1, sizeSum_cons, sizeSum_nil]; ring
      have hc : (maxB : Int) < used := by rw [hused, he']; exact hsize
      have hcn : maxB < e'.size := by
        rw [hused] at hc
        exact_mod_cast hc
      simp [evictRev, hc, storeGet, storeDelete, hused, hcn]
  | cons v l' ih =>
    intro store used k0 e0 h1 h2 h3 he hsize
    have hmem0 : (k0, e0) ∈ store := mem_of_storeGet he
    have hc : (maxB : Int) < used :=
      lt_of_lt_of_le hsize (h1 ▸ sizeSum_le_of_mem hmem0)
    have hv : v ∈ keys store := h2.subset (by simp)
    obtain ⟨ev, hev⟩ := storeGet_isSome_of_mem hv
    have hnodup_l : (v :: (l' ++ [k0])).Nodup := by
      have : List.Perm (keys store) (v :: (l' ++ [k0])) := by
        simpa using h2.symm
      exact this.nodup h3
    have hne : k0 ≠ v := by
      intro hk
      exact (List.nodup_cons.mp hnodup_l).1 (hk ▸ by simp)
    have h1' : used - (ev.size : Int) = sizeSum (storeDelete store v) := by
      rw [sizeSum_storeDelete hev, h1]
    have h2' : List.Perm (l' ++ [k0]) (keys (storeDelete store v)) := by
      rw [keys_storeDelete]
      have hperm := h2.erase v
      rwa [show (v :: l' ++ [k0]).erase v = l' ++ [k0] from
        List.erase_cons_head v _] at hperm
    have h3' : (keys (storeDelete store v)).Nodup := by
      rw [keys_storeDelete]; exact h3.erase v
    have he' : storeGet (storeDelete store v) k0 = some e0 := by
      rw [storeGet_storeDelete_ne hne]; exact he
    have := ih (storeDelete store v) (used - (ev.size : Int)) k0 e0 h1' h2' h3'
      he' hsize
    simpa [evictRev, hc, hev] using this

theorem evictRev_converges (maxB : Nat) :
    ∀ (l : List String) (store : List (String × CacheEntry)) (used : Int),
    used = sizeSum store → List.Perm l (keys store) → (keys store).Nodup →
    (evictRev maxB l store used).2.2 ≤ (maxB : Int) ∨
      (evictRev maxB l store used).2.1 = [] := by
  intro l
  induction l with
  | nil =>
    intro store used h1 h2 h3
    right
    have : keys store = [] := by simpa using h2.symm.eq_nil
    simpa [evictRev, keys] using List.map_eq_nil_iff.mp this
  | cons v rest ih =>
    intro store used h1 h2 h3
    by_cases hc : (maxB : Int) < used
    · have hv : v ∈ keys store := h2.subset (List.mem_cons_self v rest)
      obtain ⟨e, he⟩ := storeGet_isSome_of_mem hv
      have h2' : List.Perm rest (keys (storeDelete store v)) := by
        rw [keys_storeDelete]
        have hperm := h2.erase v
        rwa [List.erase_cons_head] at hperm
      have h3' : (keys (storeDelete store v)).Nodup := by
        rw [keys_storeDelete]; exact h3.erase v
      have h1' : used - (e.size : Int) = sizeSum (storeDelete store v) := by
        rw [sizeSum_storeDelete he, h1]
      simpa [evictRev, hc, he] using
        ih (storeDelete store v) (used - (e.size : Int)) h1' h2' h3'
    · left
      simpa [evictRev, hc] using le_of_not_lt hc

theorem evict_converges {c : InMemoryCache} (h : Inv c) :
    (evictUntilWithinBudget c).usedBytes ≤
        ((evictUntilWithinBudget c).maxBytes : Int) ∨
      (evictUntilWithinBudget c).store = [] := by
  obtain ⟨h1, h2, h3⟩ := h
  have hrev : List.Perm c.lru.reverse (keys c.store) :=
    (List.reverse_perm c.lru).trans h2
  have := evictRev_converges c.maxBytes c.lru.reverse c.store c.usedBytes h1
    hrev h3
  simpa [evictUntilWithinBudget] using this

theorem set_oversized {c : InMemoryCache} (h : Inv c) (now : Nat)
    (ns key : String) (v : CacheValue) (ttlMs : Nat)
    (hover : c.maxBytes < (normalizeValue v).length) :
    (set c now ns key v ttlMs).store = [] ∧
      (set c now ns key v ttlMs).lru = [] ∧
      (set c now ns key v ttlMs).usedBytes = 0 := by
  obtain ⟨h1, h2, h3⟩ := h
  have hsize : (c.maxBytes : Int) < ((normalizeValue v).length : Int) := by
    exact_mod_cast hover
  rw [set]
  cases he : storeGet c.store (makeFullKey ns key) with
  | none =>
    have hnm : makeFullKey ns key ∉ keys c.store := storeGet_eq_none_iff.mp he
    have hget := storeGet_storeSet_self c.store (makeFullKey ns key)
      ⟨normalizeValue v, if 0 < ttlMs then now + ttlMs else 0,
        (normalizeValue v).length⟩
    have hused : c.usedBytes + ((normalizeValue v).length : Int) =
        sizeSum (storeSet c.store (makeFullKey ns key)
          ⟨normalizeValue v, if 0 < ttlMs then now + ttlMs else 0,
            (normalizeValue v).length⟩) := by
      rw [storeSet_of_not_mem he, sizeSum_append, sizeSum_cons, sizeSum_nil, h1]
      ring
    have hperm : List.Perm (c.lru.reverse ++ [makeFullKey ns key])
        (keys (storeSet c.store (makeFullKey ns key)
          ⟨normalizeValue v, if 0 < ttlMs then now + ttlMs else 0,
            (normalizeValue v).length⟩)) := by
      rw [storeSet_of_not_mem he]
      simp only [keys, List.map_append, List.map_cons, List.map_nil]
      exact ((List.reverse_perm c.lru).trans h2).append (List.Perm.refl _)
    have hnodup : (keys (storeSet c.store (makeFullKey ns key)
        ⟨normalizeValue v, if 0 < ttlMs then now + ttlMs else 0,
          (normalizeValue v).length⟩)).Nodup := by
      rw [storeSet_of_not_mem he]
      simp only [keys, List.map_append, List.map_cons, List.map_nil]
      exact (List.perm_append_singleton _ _).symm.nodup
        (List.nodup_cons.mpr ⟨hnm, h3⟩)
    have hev := evictRev_oversized c.maxBytes c.lru.reverse _ _
      (makeFullKey ns key) _ hused hperm hnodup hget hsize
    simp only [he, evictUntilWithinBudget, pushFront, List.reverse_cons]
    rw [hev]
    exact ⟨rfl, rfl, rfl⟩
  | some e =>
    have hmem : makeFullKey ns key ∈ c.lru :=
      h2.mem_iff.mpr (mem_keys_of_storeGet he)
    obtain ⟨t, ht⟩ := moveToFront_head hmem
    have hget := storeGet_storeSet_self c.store (makeFullKey ns key)
      ⟨normalizeValue v, if 0 < ttlMs then now + ttlMs else 0,
        (normalizeValue v).length⟩
    have hused : c.usedBytes + ((normalizeValue v).length : Int) - (e.size : Int) =
        sizeSum (storeSet c.store (makeFullKey ns key)
          ⟨normalizeValue v, if 0 < ttlMs then now + ttlMs else 0,
            (normalizeValue v).length⟩) := by
      rw [sizeSum_storeSet_some he, h1]
      ring
    have hperm : List.Perm (t.reverse ++ [makeFullKey ns key])
        (keys (storeSet c.store (makeFullKey ns key)
          ⟨normalizeValue v, if 0 < ttlMs then now + ttlMs else 0,
            (normalizeValue v).length⟩)) := by
      rw [keys_storeSet_some he]
      have hr : List.Perm (makeFullKey ns key :: t).reverse
          (makeFullKey ns key :: t) := List.reverse_perm _
      rw [List.reverse_cons] at hr
      exact hr.trans ((ht ▸ perm_moveToFront hmem).trans h2)
    have hnodup : (keys (storeSet c.store (makeFullKey ns key)
        ⟨normalizeValue v, if 0 < ttlMs then now + ttlMs else 0,
          (normalizeValue v).length⟩)).Nodup := by
      rw [keys_storeSet_some he]; exact h3
    have hev := evictRev_oversized c.maxBytes t.reverse _ _
      (makeFullKey ns key) _ hused hperm hnodup hget hsize
    simp only [he, evictUntilWithinBudget, ht, List.reverse_cons]
    rw [hev]
    exact ⟨rfl, rfl, rfl⟩

theorem sepSplit_inj :
    ∀ (a b x y : List Char), ':' ∉ a → ':' ∉ b →
    a ++ ':' :: x = b ++ ':' :: y → a = b ∧ x = y := by
  intro a
  induction a with
  | nil =>
    intro b x y _ hb h
    cases b with
    | nil => simpa using h
    | cons c b' =>
      simp only [List.nil_append, List.cons_append, List.cons.injEq] at h
      exact absurd (h.1 ▸ List.mem_cons_self _ _) hb
  | cons c a' ih =>
    intro b x y ha hb h
    cases b with
    | nil =>
      simp only [List.cons_append, List.nil_append, List.cons.injEq] at h
      exact absurd (h.1 ▸ List.mem_cons_self _ _) ha
    | cons d b' =>
      simp only [List.cons_append, List.cons.injEq] at h
      obtain ⟨hcd, htail⟩ := h
      have ha' : ':' ∉ a' := fun hm => ha (List.mem_cons_of_mem _ hm)
      have hb' : ':' ∉ b' := fun hm => hb (List.mem_cons_of_mem _ hm)
      obtain ⟨h1, h2⟩ := ih b' x y ha' hb' htail
      exact ⟨by rw [hcd, h1], h2⟩

theorem makeFullKey_data (ns k : String) :
    (makeFullKey ns k).data = ns.data ++ ':' :: k.data := by
  show ((ns ++ ":") ++ k).data = _
  rw [String.data_append, String.data_append, List.append_assoc]
  rfl

theorem nsPrefix_data (ns : String) : (ns ++ ":").data = ns.data ++ [':'] := by
  rw [String.data_append]

theorem makeFullKey_inj_sep_free {ns1 ns2 k1 k2 : String}
    (h1 : ':' ∉ ns1.data) (h2 : ':' ∉ ns2.data)
    (h : makeFullKey ns1 k1 = makeFullKey ns2 k2) : ns1 = ns2 ∧ k1 = k2 := by
  have hd : ns1.data ++ ':' :: k1.data = ns2.data ++ ':' :: k2.data := by
    have := congrArg String.data h
    rwa [makeFullKey_data, makeFullKey_data] at this
  obtain ⟨ha, hb⟩ := sepSplit_inj ns1.data ns2.data k1.data k2.data h1 h2 hd
  exact ⟨String.ext ha, String.ext hb⟩

theorem startsWithChars_append_self :
    ∀ (p r : List Char), startsWithChars p (p ++ r) = true := by
  intro p
  induction p with
  | nil => intro r; rfl
  | cons c ps ih => intro r; simp [startsWithChars, ih]

theorem startsWithChars_comparable :
    ∀ (s p q : List Char), startsWithChars p s = true →
    startsWithChars q s = true →
    startsWithChars p q = true ∨ startsWithChars q p = true := by
  intro s
  induction s with
  | nil =>
    intro p q hp hq
    cases p with
    | nil => left; rfl
    | cons cp ps => exact absurd hp (by simp [startsWithChars])
  | cons c s' ih =>
    intro p q hp hq
    cases p with
    | nil => left; rfl
    | cons cp ps =>
      cases q with
      | nil => right; rfl
      | cons cq qs =>
        simp only [startsWithChars, Bool.and_eq_true, decide_eq_true_eq] at hp hq
        rcases ih ps qs hp.2 hq.2 with hd | hd
        · left
          simp [startsWithChars, hp.1, hq.1, hd]
        · right
          simp [startsWithChars, hp.1, hq.1, hd]

theorem sepPref_inj :
    ∀ (a b : List Char), ':' ∉ a → ':' ∉ b →
    startsWithChars (a ++ [':']) (b ++ [':']) = true → a = b := by
  intro a
  induction a with
  | nil =>
    intro b _ hb h
    cases b with
    | nil => rfl
    | cons d b' =>
      simp only [List.nil_append, List.cons_append, startsWithChars,
        Bool.and_eq_true, decide_eq_true_eq] at h
      exact absurd (h.1 ▸ List.mem_cons_self _ _) hb
  | cons c a' ih =>
    intro b ha hb h
    cases b with
    | nil =>
      simp only [List.cons_append, List.nil_append, startsWithChars,
        Bool.and_eq_true, decide_eq_true_eq] at h
      obtain ⟨hc, htail⟩ := h
      exact absurd (hc ▸ List.mem_cons_self _ _) ha
    | cons d b' =>
      simp only [List.cons_append, startsWithChars, Bool.and_eq_true,
        decide_eq_true_eq] at h
      obtain ⟨hcd, htail⟩ := h
      have ha' : ':' ∉ a' := fun hm => ha (List.mem_cons_of_mem _ hm)
      have hb' : ':' ∉ b' := fun hm => hb (List.mem_cons_of_mem _ hm)
      rw [hcd, ih b' ha' hb' htail]

theorem strStartsWith_makeFullKey_self (ns k : String) :
    strStartsWith (makeFullKey ns k) (ns ++ ":") = true := by
  rw [strStartsWith, nsPrefix_data, makeFullKey_data]
  have : ns.data ++ ':' :: k.data = (ns.data ++ [':']) ++ k.data := by simp
  rw [this]
  exact startsWithChars_append_self _ _

theorem strStartsWith_makeFullKey_other {ns1 ns2 : String} (k : String)
    (h1 : ':' ∉ ns1.data) (h2 : ':' ∉ ns2.data) (hne : ns1 ≠ ns2) :
    strStartsWith (makeFullKey ns2 k) (ns1 ++ ":") = false := by
  cases hb : strStartsWith (makeFullKey ns2 k) (ns1 ++ ":") with
  | false => rfl
  | true =>
    exfalso
    have hself := strStartsWith_makeFullKey_self ns2 k
    rw [strStartsWith, nsPrefix_data] at hb hself
    rcases startsWithChars_comparable (makeFullKey ns2 k).data
        (ns1.data ++ [':']) (ns2.data ++ [':']) hb hself with hd | hd
    · exact hne (String.ext (sepPref_inj ns1.data ns2.data h1 h2 hd))
    · exact hne (String.ext (sepPref_inj ns2.data ns1.data h2 h1 hd).symm)

theorem clearGo_store (pfx : String) :
    ∀ (store : List (String × CacheEntry)) (lru : List String) (u : Int),
    (clearGo pfx store lru u).1 =
      store.filter (fun p => !(strStartsWith p.1 pfx)) := by
  intro store
  induction store with
  | nil => intro lru u; rfl
  | cons p rest ih =>
    obtain ⟨k, e⟩ := p
    intro lru u
    by_cases hs : strStartsWith k pfx = true
    · simp [clearGo, hs, List.filter_cons, ih]
    · simp only [Bool.not_eq_true] at hs
      simp [clearGo, hs, List.filter_cons, ih]

theorem storeGet_filter_pfx {pfx fk : String}
    (h : strStartsWith fk pfx = false) :
    ∀ (store : List (String × CacheEntry)),
    storeGet (store.filter (fun p => !(strStartsWith p.1 pfx))) fk =
      storeGet store fk := by
  intro store
  induction store with
  | nil => rfl
  | cons p rest ih =>
    obtain ⟨k', e'⟩ := p
    by_cases hk : k' = fk
    · subst hk
      simp [List.filter_cons, h, storeGet]
    · by_cases hkept : strStartsWith k' pfx = true
      · simp [List.filter_cons, hkept, storeGet, hk, ih]
      · simp only [Bool.not_eq_true] at hkept
        simp [List.filter_cons, hkept, storeGet, hk, ih]

theorem filter_lruErase {p : String → Bool} {k : String} (h : p k = false) :
    ∀ (l : List String), (lruErase l k).filter p = l.filter p := by
  intro l
  induction l with
  | nil => rfl
  | cons x rest ih =>
    by_cases hx : x = k
    · subst hx
      simp [lruErase, List.filter_cons, h]
    · simp [lruErase, hx, List.filter_cons, ih]

theorem clearGo_lru_filter (pfx : String) {p : String → Bool}
    (hp : ∀ k, strStartsWith k pfx = true → p k = false) :
    ∀ (store : List (String × CacheEntry)) (lru : List String) (u : Int),
    ((clearGo pfx store lru u).2.1).filter p = lru.filter p := by
  intro store
  induction store with
  | nil => intro lru u; rfl
  | cons q rest ih =>
    obtain ⟨k, e⟩ := q
    intro lru u
    by_cases hs : strStartsWith k pfx = true
    · simp only [clearGo, hs, if_true]
      rw [ih (lruErase lru k) (u - (e.size : Int))]
      exact filter_lruErase (hp k hs) lru
    · simp only [clearGo, hs, if_false, Bool.false_eq_true]
      exact ih lru u

theorem sweepGo_store (now : Nat) :
    ∀ (store : List (String × CacheEntry)) (lru : List String) (u : Int),
    (sweepGo now store lru u).1 =
      store.filter (fun p => !(entryExpired now p.2)) := by
  intro store
  induction store with
  | nil => intro lru u; rfl
  | cons p rest ih =>
    obtain ⟨k, e⟩ := p
    intro lru u
    by_cases hs : entryExpired now e = true
    · simp [sweepGo, hs, List.filter_cons, ih]
    · simp only [Bool.not_eq_true] at hs
      simp [sweepGo, hs, List.filter_cons, ih]

theorem filter_length_lt {α : Type} {p : α → Bool} {l : List α} {x : α}
    (hm : x ∈ l) (hp : p x = false) : (l.filter p).length < l.length := by
  induction l with
  | nil => cases hm
  | cons y rest ih =>
    rcases List.mem_cons.mp hm with h0 | h0
    · subst h0
      have := List.length_filter_le p rest
      simp [List.filter_cons, hp]
      omega
    · cases hy : p y with
      | true =>
        have := ih h0
        simp [List.filter_cons, hy]
        omega
      | false =>
        have := ih h0
        simp [List.filter_cons, hy]
        omega

theorem sizeSum_filter_le (p : String × CacheEntry → Bool)
    (l : List (String × CacheEntry)) : sizeSum (l.filter p) ≤ sizeSum l := by
  induction l with
  | nil => simp
  | cons q rest ih =>
    obtain ⟨k, e⟩ := q
    cases hq : p (k, e) with
    | true =>
      simp only [List.filter_cons, hq, if_true, sizeSum_cons]
      omega
    | false =>
      have h0 := sizeSum_nonneg rest
      have h1 : (0 : Int) ≤ (e.size : Int) := by positivity
      simp only [List.filter_cons, hq, Bool.false_eq_true, if_false, sizeSum_cons]
      omega

theorem sizeSum_filter_add_le {p : String × CacheEntry → Bool}
    {l : List (String × CacheEntry)} {k : String} {e : CacheEntry}
    (hm : (k, e) ∈ l) (hp : p (k, e) = false) :
    sizeSum (l.filter p) + (e.size : Int) ≤ sizeSum l := by
  induction l with
  | nil => cases hm
  | cons q rest ih =>
    rcases List.mem_cons.mp hm with h0 | h0
    · have hq : p q = false := by rw [← h0]; exact hp
      have hs : q.2.size = e.size := by rw [← h0]
      obtain ⟨k', e'⟩ := q
      have := sizeSum_filter_le p rest
      simp only [List.filter_cons, hq, Bool.false_eq_true, if_false, sizeSum_cons]
      simp only at hs
      omega
    · obtain ⟨k', e'⟩ := q
      have := ih h0
      cases hq : p (k', e') with
      | true =>
        simp only [List.filter_cons, hq, if_true, sizeSum_cons]
        omega
      | false =>
        have h1 : (0 : Int) ≤ (e'.size : Int) := by positivity
        simp only [List.filter_cons, hq, Bool.false_eq_true, if_false, sizeSum_cons]
        omega

/-- C1: for every reachable cache state (so in particular after every
set, get, has, delete, clearNamespace, budget-enforcement eviction and
sweep pass), usedBytes equals the exact sum of the size fields of all
entries in the store, and the set of fullKeys on the recency-list nodes
equals the set of keys in the store map. -/
theorem claim1_usedBytes_and_lru_invariant (c : InMemoryCache)
    (h : Reachable c) :
    c.usedBytes = sizeSum c.store ∧ ∀ fk, fk ∈ c.lru ↔ fk ∈ keys c.store := by
  obtain ⟨h1, h2, _⟩ := inv_reachable h
  exact ⟨h1, fun fk => h2.mem_iff⟩

theorem claim1_witness :
    (set (init 10) 0 "n" "k" (CacheValue.str "v") 0).usedBytes =
        sizeSum (set (init 10) 0 "n" "k" (CacheValue.str "v") 0).store ∧
      ("n:k" ∈ (set (init 10) 0 "n" "k" (CacheValue.str "v") 0).lru ↔
        "n:k" ∈ keys (set (init 10) 0 "n" "k" (CacheValue.str "v") 0).store) :=
  ⟨(claim1_usedBytes_and_lru_invariant _
      (Reachable.set 0 "n" "k" (CacheValue.str "v") 0 (Reachable.init 10))).1,
    (claim1_usedBytes_and_lru_invariant _
      (Reachable.set 0 "n" "k" (CacheValue.str "v") 0 (Reachable.init 10))).2
      "n:k"⟩

/-- C2: has never changes the recency order — for every state and every
present, non-expired key it leaves the whole state (in particular the
recency list) unchanged; and in the concrete budget-10 scenario
set(a), set(b), has(a), set(c), the third set evicts a, not b. -/
theorem claim2_has_preserves_recency :
    (∀ (c : InMemoryCache) (now : Nat) (ns key : String) (e : CacheEntry),
      storeGet c.store (makeFullKey ns key) = some e →
      entryExpired now e = false → (has c now ns key).2 = c) ∧
    (let c2 := set (set (init 10) 0 "n" "a" (CacheValue.str "12345") 0) 0 "n"
        "b" (CacheValue.str "12345") 0
     let c4 := set (has c2 0 "n" "a").2 0 "n" "c" (CacheValue.str "1") 0
     (has c4 0 "n" "a").1 = false ∧ (has c4 0 "n" "b").1 = true ∧
       (has c4 0 "n" "c").1 = true) := by
  constructor
  · intro c now ns key e he hx
    simp [has, he, hx]
  · exact ⟨rfl, rfl, rfl⟩

theorem claim2_witness :
    (has (set (init 10) 0 "n" "a" (CacheValue.str "x") 0) 5 "n" "a").2 =
      set (init 10) 0 "n" "a" (CacheValue.str "x") 0 :=
  claim2_has_preserves_recency.1 _ 5 "n" "a" ⟨[120], 0, 1⟩ rfl rfl

/-- C3 counterexample: with budget 4, setting a single 5-byte value does
NOT leave the new entry as the sole resident — budget enforcement evicts
the new entry itself, leaving the cache empty and the subsequent get
returning none. -/
theorem claim3_counterexample_sole_resident :
    (set (init 4) 0 "n" "k" (CacheValue.str "12345") 0).store = [] ∧
      (get (set (init 4) 0 "n" "k" (CacheValue.str "12345") 0) 0 "n" "k").1 =
        none ∧
      4 < (normalizeValue (CacheValue.str "12345")).length :=
  ⟨rfl, rfl, by decide⟩

/-- C3 (amended): a set whose normalized value alone exceeds maxBytes
succeeds without error, and eviction removes every other entry AND the
new entry itself, ending with an empty cache (store and recency list
empty, usedBytes zero) rather than keeping the new entry as sole
resident. -/
theorem claim3_oversized_set_empties (c : InMemoryCache) (now : Nat)
    (ns key : String) (v : CacheValue) (ttlMs : Nat) (h : Reachable c)
    (hover : c.maxBytes < (normalizeValue v).length) :
    (set c now ns key v ttlMs).store = [] ∧
      (set c now ns key v ttlMs).lru = [] ∧
      (set c now ns key v ttlMs).usedBytes = 0 :=
  set_oversized (inv_reachable h) now ns key v ttlMs hover

theorem claim3_witness :
    (set (init 4) 0 "m" "x" (CacheValue.str "abcde") 0).store = [] ∧
      (set (init 4) 0 "m" "x" (CacheValue.str "abcde") 0).lru = [] ∧
      (set (init 4) 0 "m" "x" (CacheValue.str "abcde") 0).usedBytes = 0 :=
  claim3_oversized_set_empties (init 4) 0 "m" "x" (CacheValue.str "abcde") 0
    (Reachable.init 4) (by decide)

/-- C4 counterexample: the composite lookup identity is NOT injective
when a namespace contains the separator — the distinct pairs
("a:b", "c") and ("a", "b:c") produce the same fullKey "a:b:c". -/
theorem claim4_counterexample_fullKey_collision :
    makeFullKey "a:b" "c" = makeFullKey "a" "b:c" ∧
      ¬((("a:b", "c") : String × String) = ("a", "b:c")) :=
  ⟨by decide, by decide⟩

/-- C4 (amended): the composite lookup identity is injective provided
the namespaces do not contain the separator character. -/
theorem claim4_fullKey_injective {ns1 ns2 k1 k2 : String}
    (h1 : ':' ∉ ns1.data) (h2 : ':' ∉ ns2.data)
    (h : makeFullKey ns1 k1 = makeFullKey ns2 k2) : ns1 = ns2 ∧ k1 = k2 :=
  makeFullKey_inj_sep_free h1 h2 h

theorem claim4_witness : ("a" : String) = "a" ∧ ("b" : String) = "b" :=
  @claim4_fullKey_injective "a" "a" "b" "b" (by decide) (by decide) rfl

/-- C5 counterexample: clearNamespace("a") DOES remove an entry of the
distinct namespace "a:x", because the fullKey "a:x:k" starts with the
prefix "a:". -/
theorem claim5_counterexample_cross_namespace_removal :
    (("a" : String) ≠ "a:x") ∧
      storeGet (set (init 100) 0 "a:x" "k" (CacheValue.str "v") 0).store
        (makeFullKey "a:x" "k") = some ⟨[118], 0, 1⟩ ∧
      storeGet (clearNamespace
          (set (init 100) 0 "a:x" "k" (CacheValue.str "v") 0) "a").2.store
        (makeFullKey "a:x" "k") = none :=
  ⟨by decide, rfl, rfl⟩

/-- C5 (amended): for distinct namespaces neither of which contains the
separator character, clearNamespace(ns1) removes no ns2 entry — every
ns2 key looks up to the same entry (same value, expiry and size)
afterwards — and the recency order restricted to ns2 fullKeys is
unchanged. -/
theorem claim5_namespace_isolation (c : InMemoryCache) (ns1 ns2 : String)
    (h1 : ':' ∉ ns1.data) (h2 : ':' ∉ ns2.data) (hne : ns1 ≠ ns2) :
    (∀ k, storeGet (clearNamespace c ns1).2.store (makeFullKey ns2 k) =
        storeGet c.store (makeFullKey ns2 k)) ∧
      ((clearNamespace c ns1).2.lru.filter
          (fun fk => strStartsWith fk (ns2 ++ ":")) =
        c.lru.filter (fun fk => strStartsWith fk (ns2 ++ ":"))) := by
  constructor
  · intro k
    have hns : strStartsWith (makeFullKey ns2 k) (ns1 ++ ":") = false :=
      strStartsWith_makeFullKey_other k h1 h2 hne
    show storeGet (clearGo (ns1 ++ ":") c.store c.lru c.usedBytes).1 _ = _
    rw [clearGo_store]
    exact storeGet_filter_pfx hns c.store
  · have hp : ∀ fk, strStartsWith fk (ns1 ++ ":") = true →
        strStartsWith fk (ns2 ++ ":") = false := by
      intro fk hfk
      cases hb : strStartsWith fk (ns2 ++ ":") with
      | false => rfl
      | true =>
        exfalso
        rw [strStartsWith, nsPrefix_data] at hfk hb
        rcases startsWithChars_comparable fk.data (ns1.data ++ [':'])
            (ns2.data ++ [':']) hfk hb with hd | hd
        · exact hne (String.ext (sepPref_inj ns1.data ns2.data h1 h2 hd))
        · exact hne (String.ext (sepPref_inj ns2.data ns1.data h2 h1 hd).symm)
    exact clearGo_lru_filter (ns1 ++ ":") hp c.store c.lru c.usedBytes

theorem claim5_witness :
    storeGet (clearNamespace
        (set (init 100) 0 "b" "k" (CacheValue.str "v") 0) "a").2.store
      (makeFullKey "b" "k") =
      storeGet (set (init 100) 0 "b" "k" (CacheValue.str "v") 0).store
        (makeFullKey "b" "k") :=
  (claim5_namespace_isolation (set (init 100) 0 "b" "k" (CacheValue.str "v") 0)
    "a" "b" (by decide) (by decide) (by decide)).1 "k"

/-- C6: get returns none for an absent key; for a present but expired
key (expiresAt not the never-sentinel and at most now) it deletes the
entry — removing it from the table and list and subtracting its size —
and returns none (an ordinary result, the embedding is total so no
exception is possible); otherwise it moves the entry to the front of
the recency list and returns the stored bytes. -/
theorem claim6_get_cases (c : InMemoryCache) (now : Nat) (ns key : String) :
    (storeGet c.store (makeFullKey ns key) = none →
      get c now ns key = (none, c)) ∧
    (∀ e, storeGet c.store (makeFullKey ns key) = some e →
      entryExpired now e = true →
      get c now ns key = (none,
        { c with
          usedBytes := c.usedBytes - (e.size : Int)
          lru := lruErase c.lru (makeFullKey ns key)
          store := storeDelete c.store (makeFullKey ns key) })) ∧
    (∀ e, storeGet c.store (makeFullKey ns key) = some e →
      entryExpired now e = false →
      get c now ns key = (some e.value,
        { c with lru := moveToFront c.lru (makeFullKey ns key) })) := by
  refine ⟨?_, ?_, ?_⟩
  · intro h
    simp [get, h]
  · intro e he hx
    simp [get, delete, he, hx]
  · intro e he hx
    simp [get, he, hx]

theorem claim6_witness : get (init 4) 0 "n" "k" = (none, init 4) :=
  (claim6_get_cases (init 4) 0 "n" "k").1 rfl

/-- C7: budget enforcement always terminates (the eviction loop is a
structurally recursive total function) and never rejects a write — after
every set on a reachable state, the cache ends within budget or empty. -/
theorem claim7_budget_convergence (c : InMemoryCache) (now : Nat)
    (ns key : String) (v : CacheValue) (ttlMs : Nat) (h : Reachable c) :
    (set c now ns key v ttlMs).usedBytes ≤
        ((set c now ns key v ttlMs).maxBytes : Int) ∨
      (set c now ns key v ttlMs).store = [] := by
  have hInv : Inv c := inv_reachable h
  rw [set]
  cases he : storeGet c.store (makeFullKey ns key) with
  | none =>
    simpa only [he] using
      evict_converges (inv_insert_new hInv he (normalizeValue v) _)
  | some e =>
    simpa only [he] using
      evict_converges (inv_update_existing hInv he (normalizeValue v) _)

theorem claim7_witness :
    (set (init 10) 0 "n" "a" (CacheValue.str "12345") 0).usedBytes ≤
        ((set (init 10) 0 "n" "a" (CacheValue.str "12345") 0).maxBytes : Int) ∨
      (set (init 10) 0 "n" "a" (CacheValue.str "12345") 0).store = [] :=
  claim7_budget_convergence (init 10) 0 "n" "a" (CacheValue.str "12345") 0
    (Reachable.init 10)

/-- C8: on an empty cache whose budget admits the value, setting the
object with field a = 1 and then getting it back (before any expiry —
here no TTL was set) returns exactly the stored serialization of the
written value, and that serialization deserializes to exactly the
original object. -/
theorem claim8_set_get_roundtrip :
    (get (set (init 1024) 0 "n" "k"
        (CacheValue.obj (Json.obj [("a", Json.num 1)])) 0) 5 "n" "k").1 =
      some (utf8Bytes (jsonStringify (Json.obj [("a", Json.num 1)]))) ∧
    jsonParse 10 (jsonStringify (Json.obj [("a", Json.num 1)])).data =
      some (Json.obj [("a", Json.num 1)], []) :=
  ⟨rfl, rfl⟩

/-- C9: for an entry already expired but not yet purged, delete still
returns true and removes it (delete does not consult expiry), while has
and get at the same instant report it absent. -/
theorem claim9_delete_ignores_expiry (c : InMemoryCache) (now : Nat)
    (ns key : String) (e : CacheEntry)
    (he : storeGet c.store (makeFullKey ns key) = some e)
    (hx : entryExpired now e = true) (hnd : (keys c.store).Nodup) :
    (delete c ns key).1 = true ∧
      storeGet (delete c ns key).2.store (makeFullKey ns key) = none ∧
      (has c now ns key).1 = false ∧ (get c now ns key).1 = none := by
  refine ⟨?_, ?_, ?_, ?_⟩
  · simp [delete, he]
  · simp [delete, he, storeGet_storeDelete_self hnd]
  · simp [has, he, hx]
  · simp [get, he, hx]

theorem claim9_witness :
    (delete (set (init 10) 0 "n" "k" (CacheValue.str "v") 5) "n" "k").1 =
        true ∧
      storeGet (delete (set (init 10) 0 "n" "k" (CacheValue.str "v") 5)
          "n" "k").2.store (makeFullKey "n" "k") = none ∧
      (has (set (init 10) 0 "n" "k" (CacheValue.str "v") 5) 5 "n" "k").1 =
        false ∧
      (get (set (init 10) 0 "n" "k" (CacheValue.str "v") 5) 5 "n" "k").1 =
        none :=
  claim9_delete_ignores_expiry _ 5 "n" "k" ⟨[118], 5, 1⟩ rfl rfl (by decide)

/-- C10: stats counts expired-but-not-yet-purged entries — it is a pure
projection of the state (no expiry filtering, no mutation): the keys
count is the full store length, strictly more than the count of
non-expired entries, and usedBytes still includes the expired entry's
size; the filter used is exactly the one a sweep pass would apply. -/
theorem claim10_stats_includes_expired (c : InMemoryCache) (now : Nat)
    (ns key : String) (e : CacheEntry)
    (he : storeGet c.store (makeFullKey ns key) = some e)
    (hx : entryExpired now e = true)
    (hu : c.usedBytes = sizeSum c.store) :
    stats c = (c.store.length, c.usedBytes, c.maxBytes) ∧
      (c.store.filter (fun p => !(entryExpired now p.2))).length <
        (stats c).1 ∧
      sizeSum (c.store.filter (fun p => !(entryExpired now p.2))) +
        (e.size : Int) ≤ (stats c).2.1 ∧
      (sweepExpired c now).store =
        c.store.filter (fun p => !(entryExpired now p.2)) := by
  refine ⟨rfl, ?_, ?_, ?_⟩
  · exact filter_length_lt (mem_of_storeGet he) (by simp [hx])
  · rw [show (stats c).2.1 = c.usedBytes from rfl, hu]
    exact sizeSum_filter_add_le (mem_of_storeGet he) (by simp [hx])
  · simp [sweepExpired, sweepGo_store]

theorem claim10_witness :
    stats (set (init 10) 0 "n" "k" (CacheValue.str "v") 5) =
        ((set (init 10) 0 "n" "k" (CacheValue.str "v") 5).store.length,
          (set (init 10) 0 "n" "k" (CacheValue.str "v") 5).usedBytes,
          (set (init 10) 0 "n" "k" (CacheValue.str "v") 5).maxBytes) ∧
      ((set (init 10) 0 "n" "k" (CacheValue.str "v") 5).store.filter
          (fun p => !(entryExpired 5 p.2))).length <
        (stats (set (init 10) 0 "n" "k" (CacheValue.str "v") 5)).1 ∧
      sizeSum ((set (init 10) 0 "n" "k" (CacheValue.str "v") 5).store.filter
          (fun p => !(entryExpired 5 p.2))) + ((1 : Nat) : Int) ≤
        (stats (set (init 10) 0 "n" "k" (CacheValue.str "v") 5)).2.1 ∧
      (sweepExpired (set (init 10) 0 "n" "k" (CacheValue.str "v") 5) 5).store =
        (set (init 10) 0 "n" "k" (CacheValue.str "v") 5).store.filter
          (fun p => !(entryExpired 5 p.2)) :=
  claim10_stats_includes_expired _ 5 "n" "k" ⟨[118], 5, 1⟩ rfl rfl rfl

end InMemoryCache
